import Mathlib

/-!
Verification of the SampleFlow incremental statistics consumers.

This file gives a shallow embedding of the three consumer classes of the
library — MeanValue (mean_value.h), Histogram (histogram.h) and
Spurious_Autocovariance (spurious_autocovariance_dim_n.h) — and proves
properties of their consume/get operations.

Modelling conventions:
- C++ `double` sample arithmetic is modelled over ℚ (exact arithmetic);
  `std::log` in the logarithmic histogram branch is modelled by `Real.log`.
- `types::sample_index` is not among the provided headers. Modelled from the
  spec: "an unsigned counting type", hence ℕ; in particular the expression
  `(n_samples-1)/(n_samples)` in the autocovariance update is truncating
  (natural-number) division exactly as in C.
- Vector-valued samples (`std::valarray`-like) are `List ℚ`; boost
  `k × 1` and `k × dim` matrices are `List ℚ` and `List (List ℚ)` rows.
- Matrix cells that the C++ code leaves unwritten and never reads before
  assigning (rows of `past_sample` beyond the valid window, the
  default-initialized `current_mean` of `MeanValue`) are modelled as absent
  or zero; no theorem below depends on such a cell.
- The per-instance `std::mutex` is not modelled: each operation is a pure
  state transition, corresponding to one fully-applied, serialized call.
-/

namespace SampleFlow

/-! ### MeanValue (mean_value.h): definitions -/

/-- The member state of `MeanValue<InputType>` for a scalar sample type:
`current_mean` and `n_samples`. -/
structure MeanState where
  currentMean : ℚ
  nSamples : ℕ

/-- The `MeanValue` constructor: `n_samples(0)`; `current_mean` is left
default-initialized, modelled as `0`. -/
def meanInit : MeanState := ⟨0, 0⟩

/-- `MeanValue::consume`: the first sample is stored directly, afterwards
the Welford update `current_mean += (sample - current_mean) / n_samples`
with the already-incremented count. -/
def meanConsume (st : MeanState) (sample : ℚ) : MeanState :=
  if st.nSamples = 0 then
    ⟨sample, 1⟩
  else
    ⟨st.currentMean + (sample - st.currentMean) / ((st.nSamples + 1 : ℕ) : ℚ),
     st.nSamples + 1⟩

/-- `MeanValue::get`: returns `current_mean`. -/
def meanGet (st : MeanState) : ℚ := st.currentMean

/-- Feeding a whole sequence of samples to a freshly constructed
`MeanValue`, one `consume` call per element, in order. -/
def meanConsumeAll (xs : List ℚ) : MeanState := xs.foldl meanConsume meanInit

/-! ### Histogram (histogram.h): definitions -/

/-- `Histogram::SubdivisionScheme`. -/
inductive SubdivisionScheme where
  | linear
  | logarithmic

/-- The member state of `Histogram<InputType>`: the four configuration
fields fixed by the constructor and the `bins` count vector. -/
structure Histogram where
  min_value : ℚ
  max_value : ℚ
  n_subdivisions : ℕ
  subdivision_scheme : SubdivisionScheme
  bins : List ℕ

/-- The `Histogram` constructor: stores the configuration and
value-initializes `bins` to `n_subdivisions` zeros. -/
def histInit (mn mx : ℚ) (n : ℕ) (scheme : SubdivisionScheme) : Histogram :=
  ⟨mn, mx, n, scheme, List.replicate n 0⟩

/-- `static_cast<int>` applied to an exact (double-modelled) rational:
truncation toward zero. -/
def truncQ (q : ℚ) : ℤ := if 0 ≤ q then ⌊q⌋ else ⌈q⌉

/-- `static_cast<int>` applied to a real value (the logarithmic branch):
truncation toward zero. -/
noncomputable def truncR (x : ℝ) : ℤ := if 0 ≤ x then ⌊x⌋ else ⌈x⌉

/-- `Histogram::bin_number`: the clamped truncated quotient, in value space
for the linear scheme and in log space for the logarithmic scheme. -/
noncomputable def bin_number (h : Histogram) (value : ℚ) : ℕ :=
  match h.subdivision_scheme with
  | .linear =>
      (max 0 (min ((h.n_subdivisions : ℤ) - 1)
        (truncQ ((value - h.min_value) /
          ((h.max_value - h.min_value) / (h.n_subdivisions : ℚ)))))).toNat
  | .logarithmic =>
      (max 0 (min ((h.n_subdivisions : ℤ) - 1)
        (truncR ((Real.log (value : ℝ) - Real.log (h.min_value : ℝ)) /
          ((Real.log (h.max_value : ℝ) - Real.log (h.min_value : ℝ)) /
            (h.n_subdivisions : ℝ)))))).toNat

/-- The statement `++bins[bin]`: increment the counter at position `i`.
Out of range the C++ access would be undefined; it is modelled as a no-op
and never arises for a constructed histogram with at least one bin, since
`bin_number` clamps into `[0, n_subdivisions - 1]`. -/
def incAt : List ℕ → ℕ → List ℕ
  | [], _ => []
  | c :: cs, 0 => (c + 1) :: cs
  | c :: cs, i + 1 => c :: incAt cs i

/-- `Histogram::consume`: a sample outside `[min_value, max_value]` is
silently discarded; otherwise the counter of its bin is incremented. -/
noncomputable def histConsume (h : Histogram) (sample : ℚ) : Histogram :=
  if sample < h.min_value ∨ sample > h.max_value then h
  else { h with bins := incAt h.bins (bin_number h sample) }

/-- Feeding a whole sequence of samples to a histogram, in order. -/
noncomputable def histConsumeAll (h : Histogram) (xs : List ℚ) : Histogram :=
  xs.foldl histConsume h

/-! ### Spurious_Autocovariance (spurious_autocovariance_dim_n.h): definitions -/

/-- The autocovariance tail length: `double k=10;` is hardcoded inside
`Spurious_Autocovariance::consume`, not taken at construction. -/
def acK : ℕ := 10

/-- The inner product `Σ_j xs[j] * ys[j]` used in the `alpha` update and in
the exported autocovariance. -/
def dotQ (xs ys : List ℚ) : ℚ := (List.zipWith (· * ·) xs ys).sum

/-- The `alpha` update loop: for every valid row `i` of the sliding window,
`alpha(i) += (sample · past_sample(i) - alpha(i)) / n_samples`; entries of
`alpha` beyond the window are untouched. -/
def updAlpha (n : ℕ) (sample : List ℚ) : List (List ℚ) → List ℚ → List ℚ
  | [], as => as
  | _ :: _, [] => []
  | p :: ps, a :: as => (a + (dotQ sample p - a) / (n : ℚ)) :: updAlpha n sample ps as

/-- One row of the `beta` update:
`beta(i,j) += (sample[j] + past_sample(i,j) - beta(i,j)) / n_samples`. -/
def updBetaRow (n : ℕ) : List ℚ → List ℚ → List ℚ → List ℚ
  | sj :: ss, pj :: ps, bj :: bs =>
      (bj + (sj + pj - bj) / (n : ℚ)) :: updBetaRow n ss ps bs
  | _, _, _ => []

/-- The `beta` update loop over the valid rows of the sliding window. -/
def updBeta (n : ℕ) (sample : List ℚ) : List (List ℚ) → List (List ℚ) → List (List ℚ)
  | [], bs => bs
  | _ :: _, [] => []
  | p :: ps, b :: bs => updBetaRow n sample p b :: updBeta n sample ps bs

/-- The running-mean update shared by both non-initial branches:
`current_mean += (sample - current_mean) / n_samples` elementwise. -/
def meanUpd (n : ℕ) (mean sample : List ℚ) : List ℚ :=
  List.zipWith (fun m x => m + (x - m) / (n : ℚ)) mean sample

/-- The steady-state export recomputation, exactly as coded:
`current_autocovariation(i,0) = alpha(i,0) - Σ_j current_mean[j]*beta(i,j)
 + ((n_samples-1)/(n_samples)) * Σ_j current_mean[j]^2`, where the
parenthesized quotient is `types::sample_index` division — truncating
natural-number division, which is `0` for every `n_samples ≥ 1`. -/
def gammaRecompute (n : ℕ) (mean alpha : List ℚ) (beta : List (List ℚ)) : List ℚ :=
  List.zipWith
    (fun a b => a - dotQ mean b + (((n - 1) / n : ℕ) : ℚ) * dotQ mean mean)
    alpha beta

/-- The closed-form decomposition as the spec words it, with `(n-1)/n` taken
as the real (exact-field) quotient instead of the truncating integer
division of the code. Kept for comparison with `gammaRecompute`. -/
def gammaRealDiv (n : ℕ) (mean alpha : List ℚ) (beta : List (List ℚ)) : List ℚ :=
  List.zipWith
    (fun a b => a - dotQ mean b + (((n : ℚ) - 1) / (n : ℚ)) * dotQ mean mean)
    alpha beta

/-- The member state of `Spurious_Autocovariance<InputType>`. The sliding
window `pastSample` holds only the valid (already written) rows of the
`past_sample` matrix, newest first; rows the C++ code has not yet written
are never read before being written and are not represented. -/
structure ACState where
  currentMean : List ℚ
  alpha : List ℚ
  beta : List (List ℚ)
  currentAutocov : List ℚ
  pastSample : List (List ℚ)
  nSamples : ℕ

/-- The `Spurious_Autocovariance` constructor: `n_samples(0)`; every boost
matrix member is default-constructed to a 0×0 matrix and `current_mean` to
an empty sample. -/
def acInit : ACState := ⟨[], [], [], [], [], 0⟩

/-- `Spurious_Autocovariance::consume` with its three branches:
`n_samples == 0` (set up all members and store the first sample),
`0 < n_samples < k` (warm-up: update `alpha`, `beta` over the partial
window, push the sample, update the mean, leave the export untouched), and
`n_samples ≥ k` (steady state: the same updates over the full window, drop
the oldest window row, then recompute the export for every lag). -/
def acConsume (st : ACState) (sample : List ℚ) : ACState :=
  if st.nSamples = 0 then
    { currentMean := sample
      alpha := List.replicate acK 0
      beta := List.replicate acK (List.replicate sample.length 0)
      currentAutocov := List.replicate acK 0
      pastSample := [sample]
      nSamples := 1 }
  else if st.nSamples < acK then
    { st with
      alpha := updAlpha (st.nSamples + 1) sample st.pastSample st.alpha
      beta := updBeta (st.nSamples + 1) sample st.pastSample st.beta
      pastSample := sample :: st.pastSample
      currentMean := meanUpd (st.nSamples + 1) st.currentMean sample
      nSamples := st.nSamples + 1 }
  else
    let n := st.nSamples + 1
    let alpha' := updAlpha n sample st.pastSample st.alpha
    let beta' := updBeta n sample st.pastSample st.beta
    let mean' := meanUpd n st.currentMean sample
    { currentMean := mean'
      alpha := alpha'
      beta := beta'
      currentAutocov := gammaRecompute n mean' alpha' beta'
      pastSample := sample :: st.pastSample.take (acK - 1)
      nSamples := n }

/-- `Spurious_Autocovariance::get`: returns `current_autocovariation`
(a `k × 1` matrix, modelled as the list of its `k` entries). -/
def acGet (st : ACState) : List ℚ := st.currentAutocov

/-- Feeding a whole sequence of samples to a freshly constructed
`Spurious_Autocovariance`, one `consume` call per element, in order. -/
def acConsumeAll (xs : List (List ℚ)) : ACState := xs.foldl acConsume acInit

/-- The sizes of the lag-indexed members after at least one sample:
one entry per tracked lag. -/
def acSizes (st : ACState) : Prop :=
  st.alpha.length = acK ∧ st.beta.length = acK ∧ st.currentAutocov.length = acK

/-! ### MeanValue: lemmas and claims -/

lemma mean_foldl (ys : List ℚ) :
    ∀ (n : ℕ) (m : ℚ), 1 ≤ n →
      (ys.foldl meanConsume ⟨m, n⟩).currentMean
          = ((n : ℚ) * m + ys.sum) / ((n : ℚ) + ys.length) ∧
        (ys.foldl meanConsume ⟨m, n⟩).nSamples = n + ys.length := by
  induction ys with
  | nil =>
      intro n m hn
      have hn' : (n : ℚ) ≠ 0 := by positivity
      constructor
      · simp [meanGet]
        field_simp
      · simp
  | cons y ys ih =>
      intro n m hn
      have hn0 : n ≠ 0 := by omega
      have step : meanConsume ⟨m, n⟩ y
          = ⟨m + (y - m) / ((n + 1 : ℕ) : ℚ), n + 1⟩ := by
        simp [meanConsume, hn0]
      rw [List.foldl_cons, step]
      obtain ⟨h1, h2⟩ := ih (n + 1) (m + (y - m) / ((n + 1 : ℕ) : ℚ)) (by omega)
      refine ⟨?_, by simpa [Nat.add_comm, Nat.add_left_comm] using h2⟩
      rw [h1]
      have hn1 : ((n : ℚ) + 1) ≠ 0 := by positivity
      push_cast [List.sum_cons, List.length_cons]
      have e1 : ((n : ℚ) + 1) * (m + (y - m) / ((n : ℚ) + 1)) = (n : ℚ) * m + y := by
        field_simp
        ring
      rw [e1]
      congr 1
      · ring
      · ring

/-- Claim C2: for every finite non-empty sequence of samples fed
sequentially to a `MeanValue` accumulator, `get()` equals the batch
arithmetic mean of the sequence (exactly, over exact arithmetic); in
particular feeding 2, 4, 6 makes `get()` return 2, 3 and 4 after the
first, second and third `consume` call respectively. -/
theorem claim_C2_mean_batch_equivalence :
    (∀ xs : List ℚ, xs ≠ [] →
        meanGet (meanConsumeAll xs) = xs.sum / (xs.length : ℚ)) ∧
      meanGet (meanConsumeAll [2]) = 2 ∧
      meanGet (meanConsumeAll [2, 4]) = 3 ∧
      meanGet (meanConsumeAll [2, 4, 6]) = 4 := by
  refine ⟨?_, by norm_num [meanGet, meanConsumeAll, meanConsume, meanInit],
    by norm_num [meanGet, meanConsumeAll, meanConsume, meanInit],
    by norm_num [meanGet, meanConsumeAll, meanConsume, meanInit]⟩
  intro xs hxs
  match xs with
  | y :: ys =>
      have first : meanConsume meanInit y = ⟨y, 1⟩ := by simp [meanConsume, meanInit]
      have := (mean_foldl ys 1 y (le_refl 1)).1
      unfold meanGet meanConsumeAll
      rw [List.foldl_cons, first, this]
      push_cast [List.sum_cons, List.length_cons]
      congr 1
      · ring
      · ring

/-- Claim C9: on a `MeanValue` accumulator that has consumed nothing,
`get()` returns the default (zero) value of the sample type, and the
sample count is zero. -/
theorem claim_C9_default_mean : meanGet meanInit = 0 ∧ meanInit.nSamples = 0 :=
  ⟨rfl, rfl⟩

/-! ### Histogram: lemmas and claims -/

lemma incAt_length (l : List ℕ) (i : ℕ) : (incAt l i).length = l.length := by
  induction l generalizing i with
  | nil => simp [incAt]
  | cons c cs ih =>
      cases i with
      | zero => simp [incAt]
      | succ j => simp [incAt, ih]

lemma incAt_sum (l : List ℕ) (i : ℕ) (hi : i < l.length) :
    (incAt l i).sum = l.sum + 1 := by
  induction l generalizing i with
  | nil => simp at hi
  | cons c cs ih =>
      cases i with
      | zero => simp [incAt]; omega
      | succ j =>
          simp only [incAt, List.sum_cons]
          rw [ih j (by simpa using hi)]
          omega

lemma clamp_toNat_lt (n : ℕ) (t : ℤ) (hn : 1 ≤ n) :
    (max 0 (min ((n : ℤ) - 1) t)).toNat < n := by omega

lemma bin_number_lt (h : Histogram) (v : ℚ) (hn : 1 ≤ h.n_subdivisions) :
    bin_number h v < h.n_subdivisions := by
  unfold bin_number
  cases h.subdivision_scheme
  · exact clamp_toNat_lt _ _ hn
  · exact clamp_toNat_lt _ _ hn

lemma histConsume_min_value (h : Histogram) (s : ℚ) :
    (histConsume h s).min_value = h.min_value := by
  unfold histConsume
  split <;> rfl

lemma histConsume_max_value (h : Histogram) (s : ℚ) :
    (histConsume h s).max_value = h.max_value := by
  unfold histConsume
  split <;> rfl

lemma histConsume_n_subdivisions (h : Histogram) (s : ℚ) :
    (histConsume h s).n_subdivisions = h.n_subdivisions := by
  unfold histConsume
  split <;> rfl

lemma histConsume_bins_length (h : Histogram) (s : ℚ) :
    (histConsume h s).bins.length = h.bins.length := by
  unfold histConsume
  split
  · rfl
  · exact incAt_length _ _

lemma hist_foldl_sum (xs : List ℚ) :
    ∀ h : Histogram, 1 ≤ h.n_subdivisions → h.bins.length = h.n_subdivisions →
      (xs.foldl histConsume h).bins.sum
        = h.bins.sum + xs.countP (fun s => decide (h.min_value ≤ s ∧ s ≤ h.max_value)) := by
  induction xs with
  | nil => intro h _ _; simp
  | cons x xs ih =>
      intro h hn hlen
      rw [List.foldl_cons, List.countP_cons]
      have hrec := ih (histConsume h x)
        (by rw [histConsume_n_subdivisions]; exact hn)
        (by rw [histConsume_bins_length, histConsume_n_subdivisions]; exact hlen)
      rw [histConsume_min_value, histConsume_max_value] at hrec
      rw [hrec]
      by_cases hout : x < h.min_value ∨ x > h.max_value
      · have : histConsume h x = h := by unfold histConsume; simp [hout]
        rw [this]
        have hp : ¬(h.min_value ≤ x ∧ x ≤ h.max_value) := by
          rcases hout with h1 | h1
          · exact fun hc => absurd hc.1 (not_le.mpr h1)
          · exact fun hc => absurd hc.2 (not_le.mpr h1)
        simp [hp]
      · have hbins : (histConsume h x).bins = incAt h.bins (bin_number h x) := by
          unfold histConsume
          simp [hout]
        have hp : h.min_value ≤ x ∧ x ≤ h.max_value := by
          push_neg at hout
          exact ⟨le_of_not_lt (fun hc => absurd hc hout.1.not_lt.elim),
            le_of_not_lt (fun hc => absurd hc hout.2.not_lt.elim)⟩
        rw [hbins, incAt_sum _ _ (by rw [hlen]; exact bin_number_lt h x hn)]
        simp [hp]
        omega

/-- Claim C4: a sample strictly outside `[min_value, max_value]` is
silently discarded and changes nothing; a sample within the range
increments exactly one bin (a valid one) by 1; consequently, after any
sequence of `consume` calls on a constructed histogram with at least one
bin, the sum of all per-bin counts equals the number of consumed samples
that lay within `[min_value, max_value]`. -/
theorem claim_C4_histogram_count_conservation :
    (∀ (h : Histogram) (s : ℚ),
        s < h.min_value ∨ s > h.max_value → histConsume h s = h) ∧
      (∀ (h : Histogram) (s : ℚ), 1 ≤ h.n_subdivisions →
        h.bins.length = h.n_subdivisions →
        ¬(s < h.min_value ∨ s > h.max_value) →
        bin_number h s < h.n_subdivisions ∧
          (histConsume h s).bins = incAt h.bins (bin_number h s) ∧
          (histConsume h s).bins.sum = h.bins.sum + 1) ∧
      (∀ (mn mx : ℚ) (n : ℕ) (scheme : SubdivisionScheme) (xs : List ℚ), 1 ≤ n →
        (histConsumeAll (histInit mn mx n scheme) xs).bins.sum
          = xs.countP (fun s => decide (mn ≤ s ∧ s ≤ mx))) := by
  refine ⟨?_, ?_, ?_⟩
  · intro h s hs
    unfold histConsume
    simp [hs]
  · intro h s hn hlen hs
    refine ⟨bin_number_lt h s hn, ?_, ?_⟩
    · unfold histConsume
      simp [hs]
    · have hbins : (histConsume h s).bins = incAt h.bins (bin_number h s) := by
        unfold histConsume
        simp [hs]
      rw [hbins, incAt_sum _ _ (by rw [hlen]; exact bin_number_lt h s hn)]
  · intro mn mx n scheme xs hn
    unfold histConsumeAll
    rw [hist_foldl_sum xs (histInit mn mx n scheme) hn (by simp [histInit])]
    simp [histInit]

lemma div_div_self_cancel {K : Type} [Field K] (d c : K) (hd : d ≠ 0) :
    d / (d / c) = c := by
  rw [div_div_eq_mul_div, mul_comm, mul_div_assoc, div_self hd, mul_one]

lemma truncQ_natCast (n : ℕ) : truncQ (n : ℚ) = n := by
  unfold truncQ
  rw [if_pos (by positivity)]
  exact_mod_cast Int.floor_natCast n

lemma truncR_natCast (n : ℕ) : truncR (n : ℝ) = n := by
  unfold truncR
  rw [if_pos (by positivity)]
  exact_mod_cast Int.floor_natCast n

lemma bin_number_linear_min (mn mx : ℚ) (n : ℕ) (bins : List ℕ) (hn : 1 ≤ n) :
    bin_number ⟨mn, mx, n, .linear, bins⟩ mn = 0 := by
  unfold bin_number
  simp only [sub_self, zero_div]
  have : truncQ 0 = 0 := by unfold truncQ; simp
  rw [this]
  omega

lemma bin_number_linear_max (mn mx : ℚ) (n : ℕ) (bins : List ℕ)
    (hn : 1 ≤ n) (hlt : mn < mx) :
    bin_number ⟨mn, mx, n, .linear, bins⟩ mx = n - 1 := by
  unfold bin_number
  simp only
  have hd : mx - mn ≠ 0 := sub_ne_zero.mpr (ne_of_gt hlt)
  rw [div_div_self_cancel _ _ hd, truncQ_natCast]
  omega

lemma bin_number_log_min (mn mx : ℚ) (n : ℕ) (bins : List ℕ) (hn : 1 ≤ n) :
    bin_number ⟨mn, mx, n, .logarithmic, bins⟩ mn = 0 := by
  unfold bin_number
  simp only [sub_self, zero_div]
  have : truncR 0 = 0 := by unfold truncR; simp
  rw [this]
  omega

lemma bin_number_log_max (mn mx : ℚ) (n : ℕ) (bins : List ℕ)
    (hn : 1 ≤ n) (h0 : 0 < mn) (hlt : mn < mx) :
    bin_number ⟨mn, mx, n, .logarithmic, bins⟩ mx = n - 1 := by
  unfold bin_number
  simp only
  have hlog : Real.log (mn : ℝ) < Real.log (mx : ℝ) :=
    Real.log_lt_log (by exact_mod_cast h0) (by exact_mod_cast hlt)
  have hd : Real.log (mx : ℝ) - Real.log (mn : ℝ) ≠ 0 :=
    sub_ne_zero.mpr (ne_of_gt hlog)
  rw [div_div_self_cancel _ _ hd, truncR_natCast]
  omega

/-- Claim C6: for a histogram with at least one bin and a nonempty range
(`min_value > 0` additionally for the logarithmic scheme), a consumed
sample equal to `min_value` is counted in bin 0, and a consumed sample
equal to `max_value` is counted in bin `n_bins - 1`, for both subdivision
schemes; correspondingly `bin_number` clamps the edge cases to the valid
index range. -/
theorem claim_C6_boundary_bins :
    (∀ (mn mx : ℚ) (n : ℕ) (bins : List ℕ), 1 ≤ n → mn < mx →
        (histConsume ⟨mn, mx, n, .linear, bins⟩ mn).bins = incAt bins 0 ∧
          (histConsume ⟨mn, mx, n, .linear, bins⟩ mx).bins = incAt bins (n - 1) ∧
          bin_number ⟨mn, mx, n, .linear, bins⟩ mn = 0 ∧
          bin_number ⟨mn, mx, n, .linear, bins⟩ mx = n - 1) ∧
      (∀ (mn mx : ℚ) (n : ℕ) (bins : List ℕ), 1 ≤ n → 0 < mn → mn < mx →
        (histConsume ⟨mn, mx, n, .logarithmic, bins⟩ mn).bins = incAt bins 0 ∧
          (histConsume ⟨mn, mx, n, .logarithmic, bins⟩ mx).bins = incAt bins (n - 1) ∧
          bin_number ⟨mn, mx, n, .logarithmic, bins⟩ mn = 0 ∧
          bin_number ⟨mn, mx, n, .logarithmic, bins⟩ mx = n - 1) := by
  constructor
  · intro mn mx n bins hn hlt
    have hin_mn : ¬(mn < mn ∨ mn > mx) := by
      push_neg
      exact ⟨le_refl mn, le_of_lt hlt⟩
    have hin_mx : ¬(mx < mn ∨ mx > mx) := by
      push_neg
      exact ⟨le_of_lt hlt, le_refl mx⟩
    refine ⟨?_, ?_, bin_number_linear_min mn mx n bins hn,
      bin_number_linear_max mn mx n bins hn hlt⟩
    · unfold histConsume
      rw [if_neg hin_mn, bin_number_linear_min mn mx n bins hn]
    · unfold histConsume
      rw [if_neg hin_mx, bin_number_linear_max mn mx n bins hn hlt]
  · intro mn mx n bins hn h0 hlt
    have hin_mn : ¬(mn < mn ∨ mn > mx) := by
      push_neg
      exact ⟨le_refl mn, le_of_lt hlt⟩
    have hin_mx : ¬(mx < mn ∨ mx > mx) := by
      push_neg
      exact ⟨le_of_lt hlt, le_refl mx⟩
    refine ⟨?_, ?_, bin_number_log_min mn mx n bins hn,
      bin_number_log_max mn mx n bins hn h0 hlt⟩
    · unfold histConsume
      rw [if_neg hin_mn, bin_number_log_min mn mx n bins hn]
    · unfold histConsume
      rw [if_neg hin_mx, bin_number_log_max mn mx n bins hn h0 hlt]

/-! ### Spurious_Autocovariance: lemmas and claims -/

set_option maxHeartbeats 2000000 in
lemma ac_ones11 :
    acConsumeAll [[1],[1],[1],[1],[1],[1],[1],[1],[1],[1],[1]] =
      ⟨[1],
       [10/11, 9/11, 8/11, 7/11, 6/11, 5/11, 4/11, 3/11, 2/11, 1/11],
       [[20/11],[18/11],[16/11],[14/11],[12/11],[10/11],[8/11],[6/11],[4/11],[2/11]],
       [-(10/11), -(9/11), -(8/11), -(7/11), -(6/11), -(5/11), -(4/11), -(3/11), -(2/11), -(1/11)],
       [[1],[1],[1],[1],[1],[1],[1],[1],[1],[1]], 11⟩ := by
  norm_num [acConsumeAll, acConsume, acInit, acK, updAlpha, updBeta, updBetaRow,
    meanUpd, dotQ, gammaRecompute, List.foldl, List.replicate]

set_option maxHeartbeats 2000000 in
lemma ac_ones10 :
    acConsumeAll [[1],[1],[1],[1],[1],[1],[1],[1],[1],[1]] =
      ⟨[1],
       [9/10, 4/5, 7/10, 3/5, 1/2, 2/5, 3/10, 1/5, 1/10, 0],
       [[9/5],[8/5],[7/5],[6/5],[1],[4/5],[3/5],[2/5],[1/5],[0]],
       [0, 0, 0, 0, 0, 0, 0, 0, 0, 0],
       [[1],[1],[1],[1],[1],[1],[1],[1],[1],[1]], 10⟩ := by
  norm_num [acConsumeAll, acConsume, acInit, acK, updAlpha, updBeta, updBetaRow,
    meanUpd, dotQ, gammaRecompute, List.foldl, List.replicate]

lemma acConsume_nSamples (st : ACState) (s : List ℚ) :
    (acConsume st s).nSamples = st.nSamples + 1 := by
  by_cases h0 : st.nSamples = 0
  · simp [acConsume, h0]
  · by_cases hk : st.nSamples < acK
    · simp [acConsume, h0, hk]
    · simp [acConsume, h0, hk]

lemma ac_foldl_nSamples (ys : List (List ℚ)) :
    ∀ st : ACState, (ys.foldl acConsume st).nSamples = st.nSamples + ys.length := by
  induction ys with
  | nil => intro st; simp
  | cons y ys ih =>
      intro st
      rw [List.foldl_cons, ih, acConsume_nSamples, List.length_cons]
      omega

lemma acConsumeAll_nSamples (xs : List (List ℚ)) :
    (acConsumeAll xs).nSamples = xs.length := by
  unfold acConsumeAll acInit
  rw [ac_foldl_nSamples]
  simp

lemma acConsume_warm (st : ACState) (s : List ℚ)
    (h1 : 1 ≤ st.nSamples) (hk : st.nSamples < acK) :
    acConsume st s =
      { st with
        alpha := updAlpha (st.nSamples + 1) s st.pastSample st.alpha
        beta := updBeta (st.nSamples + 1) s st.pastSample st.beta
        pastSample := s :: st.pastSample
        currentMean := meanUpd (st.nSamples + 1) st.currentMean s
        nSamples := st.nSamples + 1 } := by
  have h0 : st.nSamples ≠ 0 := by omega
  simp [acConsume, h0, hk]

lemma acConsume_steady (st : ACState) (s : List ℚ) (hk : acK ≤ st.nSamples) :
    acConsume st s =
      { currentMean := meanUpd (st.nSamples + 1) st.currentMean s
        alpha := updAlpha (st.nSamples + 1) s st.pastSample st.alpha
        beta := updBeta (st.nSamples + 1) s st.pastSample st.beta
        currentAutocov := gammaRecompute (st.nSamples + 1)
          (meanUpd (st.nSamples + 1) st.currentMean s)
          (updAlpha (st.nSamples + 1) s st.pastSample st.alpha)
          (updBeta (st.nSamples + 1) s st.pastSample st.beta)
        pastSample := s :: st.pastSample.take (acK - 1)
        nSamples := st.nSamples + 1 } := by
  have h0 : st.nSamples ≠ 0 := by
    have : acK = 10 := rfl
    omega
  have hk' : ¬st.nSamples < acK := by omega
  simp [acConsume, h0, hk']

lemma warm_foldl (ys : List (List ℚ)) :
    ∀ st : ACState, 1 ≤ st.nSamples → st.nSamples + ys.length ≤ acK →
      (ys.foldl acConsume st).currentAutocov = st.currentAutocov := by
  induction ys with
  | nil => intro st _ _; rfl
  | cons y ys ih =>
      intro st h1 hle
      rw [List.length_cons] at hle
      have hk : st.nSamples < acK := by omega
      rw [List.foldl_cons, acConsume_warm st y h1 hk]
      rw [ih _ (by simp) (by simp; omega)]

lemma updAlpha_length (n : ℕ) (s : List ℚ) :
    ∀ (ps : List (List ℚ)) (as' : List ℚ), (updAlpha n s ps as').length = as'.length := by
  intro ps
  induction ps with
  | nil => intro as'; rfl
  | cons p ps ih =>
      intro as'
      cases as' with
      | nil => rfl
      | cons a as' => simp [updAlpha, ih]

lemma updBeta_length (n : ℕ) (s : List ℚ) :
    ∀ (ps bs : List (List ℚ)), (updBeta n s ps bs).length = bs.length := by
  intro ps
  induction ps with
  | nil => intro bs; rfl
  | cons p ps ih =>
      intro bs
      cases bs with
      | nil => rfl
      | cons b bs => simp [updBeta, ih]

lemma acConsume_sizes (st : ACState) (s : List ℚ)
    (h : acSizes st) (h1 : 1 ≤ st.nSamples) : acSizes (acConsume st s) := by
  obtain ⟨ha, hb, hc⟩ := h
  by_cases hk : st.nSamples < acK
  · rw [acConsume_warm st s h1 hk]
    exact ⟨by simp [updAlpha_length, ha], by simp [updBeta_length, hb], hc⟩
  · rw [acConsume_steady st s (by omega)]
    refine ⟨by simp [updAlpha_length, ha], by simp [updBeta_length, hb], ?_⟩
    simp only [gammaRecompute, List.length_zipWith, updAlpha_length, updBeta_length, ha, hb]
    simp

lemma acConsume_first_sizes (s : List ℚ) : acSizes (acConsume acInit s) := by
  simp [acConsume, acInit, acSizes]

lemma ac_foldl_sizes (ys : List (List ℚ)) :
    ∀ st : ACState, acSizes st → 1 ≤ st.nSamples →
      acSizes (ys.foldl acConsume st) := by
  induction ys with
  | nil => intro st h _; exact h
  | cons y ys ih =>
      intro st h h1
      rw [List.foldl_cons]
      exact ih _ (acConsume_sizes st y h h1)
        (by rw [acConsume_nSamples]; omega)

lemma acConsumeAll_sizes (xs : List (List ℚ)) (h : 1 ≤ xs.length) :
    acSizes (acConsumeAll xs) := by
  match xs with
  | x :: t =>
      unfold acConsumeAll
      rw [List.foldl_cons]
      exact ac_foldl_sizes t _ (acConsume_first_sizes x)
        (by rw [acConsume_nSamples]; omega)

/-- Claim C7: after exactly one `consume` call, `get()` returns the
all-zero `k × 1` matrix: the first sample resets `alpha` and `beta` to
zero for all `k = 10` lags, sets the running mean to the sample, and
pushes the sample into the sliding window. -/
theorem claim_C7_first_sample_zero :
    ∀ s : List ℚ,
      acConsume acInit s =
          ⟨s, List.replicate acK 0, List.replicate acK (List.replicate s.length 0),
            List.replicate acK 0, [s], 1⟩ ∧
        acGet (acConsume acInit s) = List.replicate acK 0 ∧ acK = 10 := by
  intro s
  refine ⟨?_, ?_, rfl⟩
  · simp [acConsume, acInit]
  · simp [acConsume, acInit, acGet]

/-- Claim C8: for 1 ≤ n ≤ 10 consumed samples (of any values and
dimension), `get()` is still the all-zero 10-entry export — the warm-up
branch never writes the exported autocovariance — and there is an 11-call
sequence whose `get()` is nonzero, so the 11th `consume` call is the first
after which the export can be nonzero. -/
theorem claim_C8_warmup_all_zero :
    (∀ xs : List (List ℚ), 1 ≤ xs.length → xs.length ≤ 10 →
        acGet (acConsumeAll xs) = List.replicate 10 0) ∧
      (∃ ys : List (List ℚ), ys.length = 11 ∧
        acGet (acConsumeAll ys) ≠ List.replicate 10 0) := by
  constructor
  · intro xs h1 h10
    match xs with
    | x :: t =>
        unfold acConsumeAll
        rw [List.foldl_cons]
        unfold acGet
        rw [warm_foldl t (acConsume acInit x)
          (by rw [acConsume_nSamples]; simp [acInit])
          (by rw [acConsume_nSamples]; simp [acInit]; simp [List.length_cons] at h10; simp [acK]; omega)]
        simp [acConsume, acInit, acK]
  · refine ⟨[[1],[1],[1],[1],[1],[1],[1],[1],[1],[1],[1]], rfl, ?_⟩
    rw [ac_ones11]
    unfold acGet
    simp only
    intro hcontra
    have := congrArg (fun l => l.getD 0 0) hcontra
    norm_num [List.replicate] at this

/-- Claim C1: at the first steady-state call (the 11th consume of the
constant one-dimensional stream of 1s) the exported value of lag 1 is
`alpha - mean·beta = -10/11`, because the correction term is computed with
the truncating unsigned division `(n_samples-1)/(n_samples) = 0`; the
claimed closed form with the real quotient `(n-1)/n` would instead give
`0` at lag 1, so the code does not satisfy the claimed decomposition. -/
theorem claim_C1_integer_division_eval :
    acGet (acConsumeAll [[1],[1],[1],[1],[1],[1],[1],[1],[1],[1],[1]]) =
        [-(10/11), -(9/11), -(8/11), -(7/11), -(6/11), -(5/11), -(4/11),
          -(3/11), -(2/11), -(1/11)] ∧
      gammaRealDiv 11
          (acConsumeAll [[1],[1],[1],[1],[1],[1],[1],[1],[1],[1],[1]]).currentMean
          (acConsumeAll [[1],[1],[1],[1],[1],[1],[1],[1],[1],[1],[1]]).alpha
          (acConsumeAll [[1],[1],[1],[1],[1],[1],[1],[1],[1],[1],[1]]).beta =
        [0, 1/11, 2/11, 3/11, 4/11, 5/11, 6/11, 7/11, 8/11, 9/11] ∧
      ((11 - 1) / 11 : ℕ) = 0 ∧
      (acGet (acConsumeAll [[1],[1],[1],[1],[1],[1],[1],[1],[1],[1],[1]])).getD 0 0 ≠
        (gammaRealDiv 11
          (acConsumeAll [[1],[1],[1],[1],[1],[1],[1],[1],[1],[1],[1]]).currentMean
          (acConsumeAll [[1],[1],[1],[1],[1],[1],[1],[1],[1],[1],[1]]).alpha
          (acConsumeAll [[1],[1],[1],[1],[1],[1],[1],[1],[1],[1],[1]]).beta).getD 0 0 := by
  rw [ac_ones11]
  refine ⟨rfl, ?_, rfl, ?_⟩
  · norm_num [gammaRealDiv, dotQ]
  · norm_num [acGet, gammaRealDiv, dotQ]

/-- Claim C3, counterexample: the consume call that brings the count to
exactly `n = k = 10` (constant stream of 1s) runs the warm-up branch, not
the claimed steady state: the export stays all-zero and `alpha(9)` (lag
10) is untouched, while the steady-state recomputation applied to the
post-call accumulators would yield a nonzero export. -/
theorem claim_C3_counterexample :
    acK = 10 ∧
      (acConsumeAll [[1],[1],[1],[1],[1],[1],[1],[1],[1],[1]]).nSamples = 10 ∧
      acGet (acConsumeAll [[1],[1],[1],[1],[1],[1],[1],[1],[1],[1]]) =
        List.replicate 10 0 ∧
      (acConsumeAll [[1],[1],[1],[1],[1],[1],[1],[1],[1],[1]]).alpha.getD 9 0 = 0 ∧
      gammaRecompute 10
          (acConsumeAll [[1],[1],[1],[1],[1],[1],[1],[1],[1],[1]]).currentMean
          (acConsumeAll [[1],[1],[1],[1],[1],[1],[1],[1],[1],[1]]).alpha
          (acConsumeAll [[1],[1],[1],[1],[1],[1],[1],[1],[1],[1]]).beta ≠
        acGet (acConsumeAll [[1],[1],[1],[1],[1],[1],[1],[1],[1],[1]]) := by
  rw [ac_ones10]
  refine ⟨rfl, rfl, by norm_num [acGet, List.replicate], rfl, ?_⟩
  unfold acGet
  simp only
  intro hcontra
  have := congrArg (fun l => l.getD 0 0) hcontra
  norm_num [gammaRecompute, dotQ] at this

/-- Claim C3, amended: the warm-up branch applies to every consume call
whose pre-call count `m` satisfies `1 ≤ m < k` (post-call count
`2 ≤ n ≤ k`) and leaves the export untouched; the steady-state branch —
full update, window drop, export recomputation for every lag — applies
exactly to the calls with pre-call count `m ≥ k`, i.e. post-call count
`n ≥ k + 1`, not `n ≥ k` as claimed. -/
theorem claim_C3_phase_boundary :
    (∀ (st : ACState) (s : List ℚ), 1 ≤ st.nSamples → st.nSamples < acK →
        (acConsume st s).currentAutocov = st.currentAutocov ∧
          (acConsume st s).pastSample = s :: st.pastSample ∧
          (acConsume st s).currentMean = meanUpd (st.nSamples + 1) st.currentMean s ∧
          (acConsume st s).nSamples = st.nSamples + 1) ∧
      (∀ (st : ACState) (s : List ℚ), acK ≤ st.nSamples →
        (acConsume st s).currentAutocov =
            gammaRecompute (st.nSamples + 1)
              (meanUpd (st.nSamples + 1) st.currentMean s)
              (updAlpha (st.nSamples + 1) s st.pastSample st.alpha)
              (updBeta (st.nSamples + 1) s st.pastSample st.beta) ∧
          (acConsume st s).pastSample = s :: st.pastSample.take (acK - 1) ∧
          (acConsume st s).currentMean = meanUpd (st.nSamples + 1) st.currentMean s ∧
          (acConsume st s).nSamples = st.nSamples + 1) := by
  constructor
  · intro st s h1 hk
    rw [acConsume_warm st s h1 hk]
    exact ⟨rfl, rfl, rfl, rfl⟩
  · intro st s hk
    rw [acConsume_steady st s hk]
    exact ⟨rfl, rfl, rfl, rfl⟩

/-- Claim C5, counterexample: the constructor stores no lag configuration
at all — every lag-indexed member of the freshly constructed state is an
empty (0×0) matrix — and the lag count 10 first appears when `consume`
runs, coming from the constant hardcoded in its body. -/
theorem claim_C5_counterexample :
    acInit.alpha.length = 0 ∧ acInit.beta.length = 0 ∧
      acInit.currentAutocov.length = 0 ∧ acInit.nSamples = 0 ∧
      (acConsume acInit [(0:ℚ)]).currentAutocov.length = 10 := by
  refine ⟨rfl, rfl, rfl, rfl, ?_⟩
  simp [acConsume, acInit, acK]

/-- Claim C5, amended: the lag depth is the immutable constant `k = 10`
hardcoded inside `consume`; after at least one sample, the matrix returned
by `get()` always has exactly 10 rows, one autocovariance value per lag
`1..10`. -/
theorem claim_C5_lag_depth :
    ∀ xs : List (List ℚ), 1 ≤ xs.length →
      (acGet (acConsumeAll xs)).length = acK ∧ acK = 10 := by
  intro xs h1
  exact ⟨(acConsumeAll_sizes xs h1).2.2, rfl⟩

/-- Witness for Claim C5: the amended statement at the concrete one-sample
stream `[[1]]`. -/
theorem claim_C5_witness :
    (acGet (acConsumeAll [[(1:ℚ)]])).length = acK ∧ acK = 10 :=
  claim_C5_lag_depth [[(1:ℚ)]] (by norm_num)

end SampleFlow
